import Mathlib

/-!
Verification development for the lcsc-linker repository.

The buffers of the program are modelled as `List Char`.  The regular
expressions used by `kicad_parser.py` are embedded as deterministic
character-level scanners; in every case the Python pattern is in fact
deterministic (each bounded repetition is delimited by a character that the
repetition class excludes, so greedy matching with backtracking coincides
with maximal-munch scanning).  Python `\s` is modelled by the ASCII
whitespace characters it matches on these files.
-/

/-- Whitespace characters recognised by Python's regex class for blanks. -/
def isWs (c : Char) : Bool :=
  c = ' ' || c = '\t' || c = '\n' || c = '\r' || c = '\x0b' || c = '\x0c'

/-- Consume an exact literal from the front of a list, returning the rest. -/
def lit : List Char → List Char → Option (List Char)
  | [], s => some s
  | _ :: _, [] => none
  | c :: cs, d :: ds => if d = c then lit cs ds else none

/-- Consume a nonempty run of whitespace, returning the run and the rest. -/
def ws1 (s : List Char) : Option (List Char × List Char) :=
  let run := s.takeWhile isWs
  if run.isEmpty then none else some (run, s.dropWhile isWs)

/-- Consume one double quote. -/
def expectQ : List Char → Option (List Char)
  | '"' :: r => some r
  | _ => none

/-- Scan a quoted value: characters up to the next double quote, and the
remainder after that quote.  Fails if no closing quote exists. -/
def scanVal : List Char → Option (List Char × List Char)
  | [] => none
  | c :: s =>
    if c = '"' then some ([], s)
    else match scanVal s with
      | some (v, r) => some (c :: v, r)
      | none => none

/-- Attempt the pattern of an attribute node head at the front of `s`:
the regex fragment used by `_update_property`, namely
a literal `(property`, blanks, the quoted name, blanks, and a quoted value.
On success returns the matched prefix up to and including the opening quote
of the value, the value itself, and the remainder after the closing quote. -/
def propMatchAt (name : List Char) (s : List Char) :
    Option (List Char × List Char × List Char) :=
  (lit "(property".data s).bind fun s1 =>
  (ws1 s1).bind fun p1 =>
  (lit ('"' :: name ++ ['"']) p1.2).bind fun s3 =>
  (ws1 s3).bind fun p2 =>
  (expectQ p2.2).bind fun s5 =>
  (scanVal s5).map fun pv =>
  ("(property".data ++ p1.1 ++ '"' :: name ++ '"' :: p2.1 ++ ['"'], pv.1, pv.2)

theorem lit_length {p : List Char} : ∀ {s r : List Char}, lit p s = some r →
    r.length + p.length = s.length := by
  induction p with
  | nil => intro s r h; simp [lit] at h; simp [h]
  | cons c cs ih =>
    intro s r h
    cases s with
    | nil => simp [lit] at h
    | cons d ds =>
      simp only [lit] at h
      split at h
      · have := ih h; simp only [List.length_cons]; omega
      · exact absurd h (by simp)

theorem ws1_split {s run r : List Char} (h : ws1 s = some (run, r)) :
    run ++ r = s := by
  simp only [ws1] at h
  split at h
  · exact absurd h (by simp)
  · simp only [Option.some.injEq, Prod.mk.injEq] at h
    obtain ⟨h1, h2⟩ := h
    subst h1; subst h2
    exact List.takeWhile_append_dropWhile isWs s

theorem ws1_length {s run r : List Char} (h : ws1 s = some (run, r)) :
    r.length ≤ s.length := by
  have := ws1_split h
  subst this
  simp

theorem expectQ_eq {s r : List Char} (h : expectQ s = some r) :
    s = '"' :: r := by
  match s with
  | [] => simp [expectQ] at h
  | c :: t =>
    by_cases hc : c = '"'
    · subst hc; simp [expectQ] at h; rw [h]
    · exfalso
      have : expectQ (c :: t) = none := by
        unfold expectQ
        split
        · rename_i heq
          injection heq with h1 _
          exact absurd h1 hc
        · rfl
      rw [this] at h; exact absurd h (by simp)

theorem scanVal_length : ∀ {s v r : List Char}, scanVal s = some (v, r) →
    r.length < s.length := by
  intro s
  induction s with
  | nil => intro v r h; simp [scanVal] at h
  | cons c cs ih =>
    intro v r h
    simp only [scanVal] at h
    split at h
    · simp only [Option.some.injEq, Prod.mk.injEq] at h
      obtain ⟨_, h2⟩ := h; subst h2; simp
    · cases hs : scanVal cs with
      | none => rw [hs] at h; exact absurd h (by simp)
      | some p =>
        rw [hs] at h
        obtain ⟨pv, pr⟩ := p
        simp only [Option.some.injEq, Prod.mk.injEq] at h
        obtain ⟨_, h2⟩ := h; subst h2
        have := ih hs
        simp only [List.length_cons]; omega

theorem propMatchAt_rest_lt {name s g1 v rest : List Char}
    (h : propMatchAt name s = some (g1, v, rest)) : rest.length < s.length := by
  simp only [propMatchAt, Option.bind_eq_some, Option.map_eq_some'] at h
  obtain ⟨s1, h1, ⟨w1, s2⟩, h2, s3, h3, ⟨w2, s4⟩, h4, s5, h5, ⟨v', r'⟩, h6, h7⟩ := h
  simp only [Prod.mk.injEq] at h7
  obtain ⟨_, _, hr⟩ := h7
  subst hr
  have l1 := lit_length h1
  have l2 := ws1_length h2
  have l3 := lit_length h3
  have l4 := ws1_length h4
  have l5 : s4 = '"' :: s5 := expectQ_eq h5
  have l6 := scanVal_length h6
  have e1 : ("(property".data).length = 9 := rfl
  have e2 : s5.length + 1 = s4.length := by rw [l5]; simp
  rw [e1] at l1
  have l3' : s3.length + (name.length + 2) = s2.length := by
    have : ('"' :: name ++ ['"']).length = name.length + 2 := by simp
    rw [this] at l3; exact l3
  omega

/-- One `re.sub` pass replacing the quoted value of every attribute node
named `name`, scanning left to right and continuing after each match, as
`re.sub` does for the pattern of `_update_property`.  The fuel argument
bounds the number of scanning steps; `s.length` always suffices. -/
def substF (name val : List Char) : Nat → List Char → List Char
  | 0, s => s
  | _ + 1, [] => []
  | f + 1, c :: s =>
    match propMatchAt name (c :: s) with
    | some (g1, _, rest) => g1 ++ val ++ '"' :: substF name val f rest
    | none => c :: substF name val f s

/-- Replace the quoted value of every attribute node named `name` in `s`. -/
def subst (name val s : List Char) : List Char :=
  substF name val s.length s

/-- Whether an attribute node named `name` occurs anywhere in `s`:
the `re.search` test of `_update_property`. -/
def hasMatch (name : List Char) : List Char → Bool
  | [] => false
  | c :: s => (propMatchAt name (c :: s)).isSome || hasMatch name s

/-- Count the attribute nodes named `name`, scanning for non-overlapping
matches left to right (the discipline of `re.finditer`). -/
def countF (name : List Char) : Nat → List Char → Nat
  | 0, _ => 0
  | _ + 1, [] => 0
  | f + 1, c :: s =>
    match propMatchAt name (c :: s) with
    | some (_, _, rest) => countF name f rest + 1
    | none => countF name f s

/-- Count of attribute nodes named `name` in `s`. -/
def countMatches (name s : List Char) : Nat :=
  countF name s.length s

/-- Value of the leftmost attribute node named `name`, if any. -/
def firstMatchVal (name : List Char) : List Char → Option (List Char)
  | [] => none
  | c :: s =>
    match propMatchAt name (c :: s) with
    | some (_, v, _) => some v
    | none => firstMatchVal name s

theorem substF_fuel {name val : List Char} :
    ∀ {f g : Nat} {s : List Char}, s.length ≤ f → s.length ≤ g →
    substF name val f s = substF name val g s := by
  intro f
  induction f with
  | zero =>
    intro g s hf _
    have : s = [] := List.length_eq_zero.mp (Nat.le_zero.mp hf)
    subst this
    cases g <;> rfl
  | succ f ih =>
    intro g s hf hg
    cases s with
    | nil => cases g <;> rfl
    | cons c s =>
      cases g with
      | zero => exact absurd hg (by simp)
      | succ g =>
        simp only [substF]
        cases hm : propMatchAt name (c :: s) with
        | some t =>
          obtain ⟨g1, v, rest⟩ := t
          have hlt := propMatchAt_rest_lt hm
          simp only [List.length_cons] at hlt hf hg
          have := ih (g := g) (s := rest) (by omega) (by omega)
          dsimp only
          rw [this]
        | none =>
          simp only [List.length_cons] at hf hg
          have := ih (g := g) (s := s) (by omega) (by omega)
          dsimp only
          rw [this]

theorem countF_fuel {name : List Char} :
    ∀ {f g : Nat} {s : List Char}, s.length ≤ f → s.length ≤ g →
    countF name f s = countF name g s := by
  intro f
  induction f with
  | zero =>
    intro g s hf _
    have : s = [] := List.length_eq_zero.mp (Nat.le_zero.mp hf)
    subst this
    cases g <;> rfl
  | succ f ih =>
    intro g s hf hg
    cases s with
    | nil => cases g <;> rfl
    | cons c s =>
      cases g with
      | zero => exact absurd hg (by simp)
      | succ g =>
        simp only [countF]
        cases hm : propMatchAt name (c :: s) with
        | some t =>
          obtain ⟨g1, v, rest⟩ := t
          have hlt := propMatchAt_rest_lt hm
          simp only [List.length_cons] at hlt hf hg
          have := ih (g := g) (s := rest) (by omega) (by omega)
          dsimp only
          rw [this]
        | none =>
          simp only [List.length_cons] at hf hg
          have := ih (g := g) (s := s) (by omega) (by omega)
          dsimp only
          rw [this]

theorem subst_nil {name val : List Char} : subst name val [] = [] := rfl

theorem subst_cons_some {name val c0 : List Char} {c : Char} {s g1 v rest : List Char}
    (hm : propMatchAt name (c :: s) = some (g1, v, rest)) (hc0 : c0 = name) :
    subst c0 val (c :: s) = g1 ++ val ++ '"' :: subst name val rest := by
  subst hc0
  have hlt := propMatchAt_rest_lt hm
  simp only [List.length_cons] at hlt
  unfold subst
  simp only [List.length_cons, substF, hm]
  congr 2
  exact substF_fuel (by omega) (le_refl _)

theorem subst_cons_none {name val : List Char} {c : Char} {s : List Char}
    (hm : propMatchAt name (c :: s) = none) :
    subst name val (c :: s) = c :: subst name val s := by
  unfold subst
  simp only [List.length_cons, substF, hm]

theorem countMatches_cons_some {name : List Char} {c : Char} {s g1 v rest : List Char}
    (hm : propMatchAt name (c :: s) = some (g1, v, rest)) :
    countMatches name (c :: s) = countMatches name rest + 1 := by
  have hlt := propMatchAt_rest_lt hm
  simp only [List.length_cons] at hlt
  unfold countMatches
  simp only [List.length_cons, countF, hm]
  congr 1
  exact countF_fuel (by omega) (le_refl _)

theorem countMatches_cons_none {name : List Char} {c : Char} {s : List Char}
    (hm : propMatchAt name (c :: s) = none) :
    countMatches name (c :: s) = countMatches name s := by
  unfold countMatches
  simp only [List.length_cons, countF, hm]

/-- A string is transparent for `name` if no attribute-node match for `name`
can begin inside it, regardless of what text follows it.  All skipping
arguments about the patcher are phrased with this predicate. -/
def Transparent (name u : List Char) : Prop :=
  ∀ X : List Char, ∀ i : Nat, i < u.length → propMatchAt name ((u ++ X).drop i) = none

theorem transparent_nil {name : List Char} : Transparent name [] := by
  intro X i hi
  simp at hi

theorem transparent_cons_tail {name : List Char} {c : Char} {u : List Char}
    (h : Transparent name (c :: u)) : Transparent name u := by
  intro X i hi
  have := h X (i + 1) (by simp; omega)
  simpa using this

theorem transparent_head {name : List Char} {c : Char} {u : List Char}
    (h : Transparent name (c :: u)) (X : List Char) :
    propMatchAt name (c :: (u ++ X)) = none := by
  have := h X 0 (by simp)
  simpa using this

theorem transparent_append {name u w : List Char}
    (hu : Transparent name u) (hw : Transparent name w) :
    Transparent name (u ++ w) := by
  intro X i hi
  simp only [List.length_append] at hi
  by_cases h : i < u.length
  · have := hu (w ++ X) i h
    rw [List.append_assoc]
    exact this
  · push_neg at h
    have := hw X (i - u.length) (by omega)
    rw [List.append_assoc, List.drop_append_eq_append_drop]
    have : (List.drop i u) = [] := List.drop_of_length_le h
    rw [this, List.nil_append]
    have := hw X (i - u.length) (by omega)
    exact this

theorem subst_append_transparent {name val u : List Char}
    (hu : Transparent name u) :
    ∀ y : List Char, subst name val (u ++ y) = u ++ subst name val y := by
  induction u with
  | nil => intro y; simp
  | cons c u ih =>
    intro y
    have hm : propMatchAt name (c :: (u ++ y)) = none := transparent_head hu y
    have : subst name val (c :: (u ++ y)) = c :: subst name val (u ++ y) :=
      subst_cons_none hm
    simp only [List.cons_append, this, ih (transparent_cons_tail hu) y]

theorem subst_self_of_transparent {name val u : List Char}
    (hu : Transparent name u) : subst name val u = u := by
  have := @subst_append_transparent name val u hu []
  simpa [subst_nil] using this

theorem hasMatch_append_transparent {name u : List Char}
    (hu : Transparent name u) :
    ∀ y : List Char, hasMatch name (u ++ y) = hasMatch name y := by
  induction u with
  | nil => intro y; simp
  | cons c u ih =>
    intro y
    have hm : propMatchAt name (c :: (u ++ y)) = none := transparent_head hu y
    simp only [List.cons_append, hasMatch, List.append_eq, hm, Option.isSome_none,
      Bool.false_or]
    exact ih (transparent_cons_tail hu) y

theorem hasMatch_false_of_transparent {name u : List Char}
    (hu : Transparent name u) : hasMatch name u = false := by
  have := hasMatch_append_transparent hu []
  simpa [hasMatch] using this

theorem countMatches_append_transparent {name u : List Char}
    (hu : Transparent name u) :
    ∀ y : List Char, countMatches name (u ++ y) = countMatches name y := by
  induction u with
  | nil => intro y; simp
  | cons c u ih =>
    intro y
    have hm : propMatchAt name (c :: (u ++ y)) = none := transparent_head hu y
    have : countMatches name (c :: (u ++ y)) = countMatches name (u ++ y) :=
      countMatches_cons_none hm
    simp only [List.cons_append, this, ih (transparent_cons_tail hu) y]

theorem countMatches_zero_of_transparent {name u : List Char}
    (hu : Transparent name u) : countMatches name u = 0 := by
  have := countMatches_append_transparent hu []
  simpa [countMatches, countF] using this

theorem firstMatchVal_append_transparent {name u : List Char}
    (hu : Transparent name u) :
    ∀ y : List Char, firstMatchVal name (u ++ y) = firstMatchVal name y := by
  induction u with
  | nil => intro y; simp
  | cons c u ih =>
    intro y
    have hm : propMatchAt name (c :: (u ++ y)) = none := transparent_head hu y
    simp only [List.cons_append, firstMatchVal, List.append_eq, hm]
    exact ih (transparent_cons_tail hu) y

theorem lit_self_append : ∀ (p r : List Char), lit p (p ++ r) = some r := by
  intro p
  induction p with
  | nil => intro r; rfl
  | cons c cs ih => intro r; simp [lit, ih r]

theorem scanVal_append {v : List Char} (hv : ∀ a ∈ v, a ≠ '"') :
    ∀ Y : List Char, scanVal (v ++ '"' :: Y) = some (v, Y) := by
  induction v with
  | nil => intro Y; simp [scanVal]
  | cons c cs ih =>
    intro Y
    have hc : c ≠ '"' := hv c (by simp)
    have hcs : ∀ a ∈ cs, a ≠ '"' := fun a ha => hv a (by simp [ha])
    simp [scanVal, hc, ih hcs Y]

theorem propMatchAt_none_of_head {name : List Char} {c : Char} {t : List Char}
    (hc : c ≠ '(') : propMatchAt name (c :: t) = none := by
  have hd : "(property".data = '(' :: "property".data := rfl
  have : lit "(property".data (c :: t) = none := by
    rw [hd]
    simp [lit, hc]
  simp [propMatchAt, this]

theorem propMatchAt_none_of_lit {name s : List Char}
    (h : lit "(property".data s = none) : propMatchAt name s = none := by
  simp [propMatchAt, h]

/-- A definite mismatch between a pattern and the front of a string:
some position where both have a character and the characters differ.
Such a mismatch refutes a literal match regardless of any continuation. -/
def definiteMismatch : List Char → List Char → Bool
  | [], _ => false
  | _ :: _, [] => false
  | p :: ps, a :: as => a ≠ p || definiteMismatch ps as

theorem lit_none_of_dm : ∀ {p s : List Char}, definiteMismatch p s = true →
    ∀ X : List Char, lit p (s ++ X) = none := by
  intro p
  induction p with
  | nil => intro s h; simp [definiteMismatch] at h
  | cons c cs ih =>
    intro s h X
    cases s with
    | nil => simp [definiteMismatch] at h
    | cons a as =>
      simp only [definiteMismatch, Bool.or_eq_true, decide_eq_true_eq] at h
      rcases h with h | h
      · simp [lit, h]
      · simp only [List.cons_append, lit]
        split
        · exact ih h X
        · rfl

/-- Check that every opening parenthesis in a chunk is definitely not the
start of a `(property` literal, witnessed inside the chunk itself.  A chunk
passing this check can never host the start of an attribute-node match. -/
def cleanChunk : List Char → Bool
  | [] => true
  | c :: rest =>
    (if c = '(' then definiteMismatch "property".data rest else true) && cleanChunk rest

theorem transparent_cons {name : List Char} {c : Char} {u : List Char}
    (h0 : ∀ X : List Char, propMatchAt name (c :: (u ++ X)) = none)
    (hu : Transparent name u) : Transparent name (c :: u) := by
  intro X i hi
  cases i with
  | zero => simpa using h0 X
  | succ j =>
    simp only [List.length_cons] at hi
    have := hu X j (by omega)
    simpa using this

theorem transparent_of_cleanChunk {name : List Char} :
    ∀ {u : List Char}, cleanChunk u = true → Transparent name u := by
  intro u
  induction u with
  | nil => intro _; exact transparent_nil
  | cons c rest ih =>
    intro h
    simp only [cleanChunk, Bool.and_eq_true] at h
    obtain ⟨h1, h2⟩ := h
    refine transparent_cons ?_ (ih h2)
    intro X
    by_cases hc : c = '('
    · subst hc
      rw [if_pos rfl] at h1
      apply propMatchAt_none_of_lit
      have hd : "(property".data = '(' :: "property".data := rfl
      rw [hd]
      simp only [lit, if_pos rfl]
      exact lit_none_of_dm h1 X
    · exact propMatchAt_none_of_head hc

theorem transparent_of_noParen {name : List Char} :
    ∀ {u : List Char}, (∀ a ∈ u, a ≠ '(') → Transparent name u := by
  intro u
  induction u with
  | nil => intro _; exact transparent_nil
  | cons c rest ih =>
    intro h
    refine transparent_cons ?_ (ih fun a ha => h a (by simp [ha]))
    intro X
    exact propMatchAt_none_of_head (h c (by simp))

/-- The rendered head of an attribute node named `n`, up to and including
the opening quote of its value, in the single-space layout used by the
schematic format and by the patcher's synthesized nodes. -/
def propOpen (n : List Char) : List Char :=
  "(property \"".data ++ n ++ "\" \"".data

/-- The rendered head of an attribute node named `n` holding value `v`,
through the closing quote of the value. -/
def nodeOpen (n v : List Char) : List Char :=
  propOpen n ++ v ++ ['"']

theorem lit_name_mismatch : ∀ {n m : List Char}, n ≠ m →
    (∀ a ∈ n, a ≠ '"') → (∀ a ∈ m, a ≠ '"') →
    ∀ R : List Char, lit (n ++ ['"']) (m ++ '"' :: R) = none := by
  intro n
  induction n with
  | nil =>
    intro m hne hn hm R
    cases m with
    | nil => exact absurd rfl hne
    | cons b m' =>
      have hb : b ≠ '"' := hm b (by simp)
      simp [lit, hb]
  | cons a n' ih =>
    intro m hne hn hm R
    cases m with
    | nil =>
      have ha : a ≠ '"' := hn a (by simp)
      simp only [List.cons_append, List.nil_append, lit]
      rw [if_neg (show ¬('"' = a) from fun h => ha (Eq.symm h))]
    | cons b m' =>
      simp only [List.cons_append, lit]
      split
      · rename_i hba
        subst hba
        exact ih (fun h => hne (by rw [h]))
          (fun x hx => hn x (by simp [hx]))
          (fun x hx => hm x (by simp [hx])) R
      · rfl

theorem propMatchAt_nodeOpen {n v : List Char}
    (hv : ∀ a ∈ v, a ≠ '"') (Y : List Char) :
    propMatchAt n (nodeOpen n v ++ Y) = some (propOpen n, v, Y) := by
  have e1 : nodeOpen n v ++ Y =
      "(property".data ++ (' ' :: '"' :: (n ++ ('"' :: ' ' :: '"' :: (v ++ '"' :: Y)))) := by
    simp [nodeOpen, propOpen]
  rw [e1]
  have l1 : lit "(property".data
      ("(property".data ++ (' ' :: '"' :: (n ++ ('"' :: ' ' :: '"' :: (v ++ '"' :: Y))))) =
      some (' ' :: '"' :: (n ++ ('"' :: ' ' :: '"' :: (v ++ '"' :: Y)))) :=
    lit_self_append _ _
  have l2 : ws1 (' ' :: '"' :: (n ++ ('"' :: ' ' :: '"' :: (v ++ '"' :: Y)))) =
      some ([' '], '"' :: (n ++ ('"' :: ' ' :: '"' :: (v ++ '"' :: Y)))) := rfl
  have l3 : lit ('"' :: n ++ ['"'])
      ('"' :: (n ++ ('"' :: ' ' :: '"' :: (v ++ '"' :: Y)))) =
      some (' ' :: '"' :: (v ++ '"' :: Y)) := by
    have : ('"' :: (n ++ ('"' :: ' ' :: '"' :: (v ++ '"' :: Y)))) =
        ('"' :: n ++ ['"']) ++ (' ' :: '"' :: (v ++ '"' :: Y)) := by simp
    rw [this]
    exact lit_self_append _ _
  have l4 : ws1 (' ' :: '"' :: (v ++ '"' :: Y)) =
      some ([' '], '"' :: (v ++ '"' :: Y)) := rfl
  have l5 : expectQ ('"' :: (v ++ '"' :: Y)) = some (v ++ '"' :: Y) := rfl
  have l6 : scanVal (v ++ '"' :: Y) = some (v, Y) := scanVal_append hv Y
  simp only [propMatchAt, l1, Option.some_bind, l2, l3, l4, l5, l6, Option.map_some']
  simp [propOpen]

theorem propMatchAt_nil {name : List Char} : propMatchAt name [] = none := rfl

theorem transparent_otherNode {name m v : List Char}
    (hne : m ≠ name)
    (hn : ∀ a ∈ name, a ≠ '"') (hm : ∀ a ∈ m, a ≠ '"')
    (hmp : ∀ a ∈ m, a ≠ '(') (hvp : ∀ a ∈ v, a ≠ '(') :
    Transparent name (nodeOpen m v) := by
  have hsplit : nodeOpen m v =
      '(' :: ("property \"".data ++ m ++ "\" \"".data ++ v ++ ['"']) := by
    simp [nodeOpen, propOpen]
  rw [hsplit]
  refine transparent_cons ?_ ?_
  · intro X
    have hshape : '(' :: (("property \"".data ++ m ++ "\" \"".data ++ v ++ ['"']) ++ X) =
        "(property".data ++ (' ' :: '"' :: (m ++ ('"' :: ' ' :: '"' :: (v ++ '"' :: X)))) := by
      simp
    rw [hshape]
    have l1 := lit_self_append "(property".data
      (' ' :: '"' :: (m ++ ('"' :: ' ' :: '"' :: (v ++ '"' :: X))))
    have l2 : ws1 (' ' :: '"' :: (m ++ ('"' :: ' ' :: '"' :: (v ++ '"' :: X)))) =
        some ([' '], '"' :: (m ++ ('"' :: ' ' :: '"' :: (v ++ '"' :: X)))) := rfl
    have l3 : lit ('"' :: name ++ ['"'])
        ('"' :: (m ++ ('"' :: ' ' :: '"' :: (v ++ '"' :: X)))) = none := by
      simp only [List.cons_append, lit, if_pos rfl]
      exact lit_name_mismatch (fun h => hne h.symm) hn hm _
    simp only [propMatchAt, l1, Option.some_bind, l2, l3, Option.none_bind]
  · refine transparent_of_noParen ?_
    have hconc : ∀ a ∈ ("property \"".data : List Char), a ≠ '(' := by decide
    have hconc2 : ∀ a ∈ ("\" \"".data : List Char), a ≠ '(' := by decide
    have hq : ('"' : Char) ≠ '(' := by decide
    intro a ha
    simp only [List.append_assoc, List.mem_append, List.mem_singleton] at ha
    rcases ha with ha | ha | ha | ha | ha
    · exact hconc a ha
    · exact hmp a ha
    · exact hconc2 a ha
    · exact hvp a ha
    · subst ha; exact hq

theorem subst_match {n val s g1 v rest : List Char}
    (hm : propMatchAt n s = some (g1, v, rest)) :
    subst n val s = g1 ++ val ++ '"' :: subst n val rest := by
  cases s with
  | nil => rw [propMatchAt_nil] at hm; exact absurd hm (by simp)
  | cons c s' => exact subst_cons_some hm rfl

theorem hasMatch_of_match {n s g1 v rest : List Char}
    (hm : propMatchAt n s = some (g1, v, rest)) : hasMatch n s = true := by
  cases s with
  | nil => rw [propMatchAt_nil] at hm; exact absurd hm (by simp)
  | cons c s' => simp [hasMatch, hm]

theorem countMatches_match {n s g1 v rest : List Char}
    (hm : propMatchAt n s = some (g1, v, rest)) :
    countMatches n s = countMatches n rest + 1 := by
  cases s with
  | nil => rw [propMatchAt_nil] at hm; exact absurd hm (by simp)
  | cons c s' => exact countMatches_cons_some hm

theorem firstMatchVal_match {n s g1 v rest : List Char}
    (hm : propMatchAt n s = some (g1, v, rest)) :
    firstMatchVal n s = some v := by
  cases s with
  | nil => rw [propMatchAt_nil] at hm; exact absurd hm (by simp)
  | cons c s' => simp [firstMatchVal, hm]

theorem subst_node {n val u v t : List Char}
    (hu : Transparent n u) (ht : Transparent n t) (hv : ∀ a ∈ v, a ≠ '"') :
    subst n val (u ++ (nodeOpen n v ++ t)) = u ++ (nodeOpen n val ++ t) := by
  rw [subst_append_transparent hu]
  rw [subst_match (propMatchAt_nodeOpen hv t)]
  rw [subst_self_of_transparent ht]
  simp [nodeOpen]

theorem hasMatch_node {n u v t : List Char}
    (hu : Transparent n u) (hv : ∀ a ∈ v, a ≠ '"') :
    hasMatch n (u ++ (nodeOpen n v ++ t)) = true := by
  rw [hasMatch_append_transparent hu]
  exact hasMatch_of_match (propMatchAt_nodeOpen hv t)

theorem countMatches_node {n u v t : List Char}
    (hu : Transparent n u) (ht : Transparent n t) (hv : ∀ a ∈ v, a ≠ '"') :
    countMatches n (u ++ (nodeOpen n v ++ t)) = 1 := by
  rw [countMatches_append_transparent hu]
  rw [countMatches_match (propMatchAt_nodeOpen hv t)]
  rw [countMatches_zero_of_transparent ht]

theorem firstMatchVal_node {n u v t : List Char}
    (hu : Transparent n u) (hv : ∀ a ∈ v, a ≠ '"') :
    firstMatchVal n (u ++ (nodeOpen n v ++ t)) = some v := by
  rw [firstMatchVal_append_transparent hu]
  exact firstMatchVal_match (propMatchAt_nodeOpen hv t)

/-- The pattern used to recover the position hint of the `Reference`
attribute: a `(property "Reference"` head, anything up to the first
opening parenthesis, which must begin `(at`, blanks, and a nonempty
capture of characters up to the closing parenthesis.  The capture follows
the backtracking rule of the regex: when only blanks precede the closing
parenthesis the last blank is captured, provided at least one blank
remains for the mandatory run. -/
def refAtHere (s : List Char) : Option (List Char) :=
  (lit "(property".data s).bind fun s1 =>
  (ws1 s1).bind fun p1 =>
  (lit "\"Reference\"".data p1.2).bind fun s2 =>
  (lit "(at".data (s2.dropWhile (fun c => c ≠ '('))).bind fun s4 =>
  (ws1 s4).bind fun p2 =>
  let g := p2.2.takeWhile (fun c => c ≠ ')')
  match p2.2.dropWhile (fun c => c ≠ ')') with
  | ')' :: _ =>
    if g.isEmpty then
      if 2 ≤ p2.1.length then (p2.1.getLast?).map (fun c => [c]) else none
    else some g
  | _ => none

/-- Leftmost occurrence of the `Reference` position-hint pattern. -/
def find_ref_at : List Char → Option (List Char)
  | [] => none
  | c :: s =>
    match refAtHere (c :: s) with
    | some g => some g
    | none => find_ref_at s

/-- A newline followed by blanks and a `(pin "` head; yields the blanks. -/
def pinHere (s : List Char) : Option (List Char) :=
  match s with
  | '\n' :: s1 =>
    (lit "(pin".data (s1.dropWhile isWs)).bind fun s3 =>
    (ws1 s3).bind fun p =>
    match p.2 with
    | '"' :: _ => some (s1.takeWhile isWs)
    | _ => none
  | _ => none

/-- Leftmost pin-declaration insertion point: offset of the newline that
precedes the first pin sub-node, together with the captured blanks. -/
def find_pin : List Char → Option (Nat × List Char)
  | [] => none
  | c :: s =>
    match pinHere (c :: s) with
    | some w => some (0, w)
    | none => (find_pin s).map fun p => (p.1 + 1, p.2)

/-- A newline followed by blanks and an `(instances` head followed by one
blank; yields the blanks before `(instances`. -/
def instHere (s : List Char) : Option (List Char) :=
  match s with
  | '\n' :: s1 =>
    (lit "(instances".data (s1.dropWhile isWs)).bind fun s3 =>
    match s3 with
    | c :: _ => if isWs c then some (s1.takeWhile isWs) else none
    | [] => none
  | _ => none

/-- Leftmost instances insertion point. -/
def find_inst : List Char → Option (Nat × List Char)
  | [] => none
  | c :: s =>
    match instHere (c :: s) with
    | some w => some (0, w)
    | none => (find_inst s).map fun p => (p.1 + 1, p.2)

/-- Index at which the fallback branch splices: the last closing
parenthesis, or one before the end when none exists (Python `rfind`
returning `-1` makes the slice `raw[:-1] + new + raw[-1:]`). -/
def rfind_paren (s : List Char) : Nat :=
  match s.reverse.findIdx? (fun c => c = ')') with
  | some k => s.length - 1 - k
  | none => s.length - 1

/-- Everything of a synthesized attribute node after the closing quote of
its value: the position hint, the hidden default display metadata, and the
node's closing parenthesis, laid out as the patcher renders it. -/
def nodeTail (indent coords : List Char) : List Char :=
  " (at ".data ++ coords ++ ")\n".data ++ indent ++
    "\t(effects (font (size 1.27 1.27)) hide)\n".data ++ indent ++ [')']

/-- A synthesized attribute node exactly as `_update_property` renders it. -/
def renderNewProp (indent name value coords : List Char) : List Char :=
  '\n' :: indent ++ nodeOpen name value ++ nodeTail indent coords

/-- The insertion-offset policy of `_update_property`: before the first
pin sub-node, else before the first instances sub-node, else before the
last closing parenthesis with a default two-tab indent. -/
def insertion_choice (raw : List Char) : Nat × List Char :=
  match find_pin raw with
  | some p => p
  | none =>
    match find_inst raw with
    | some p => p
    | none => (rfind_paren raw, ['\t', '\t'])

/-- The attribute patcher `_update_property`: rewrite the value of an
existing node, else synthesize a node at the policy-determined insertion
offset. -/
def update_property (raw name value : List Char) : List Char :=
  if hasMatch name raw then subst name value raw
  else
    let coords := (find_ref_at raw).getD "0 0 0".data
    raw.take (insertion_choice raw).1 ++
      renderNewProp (insertion_choice raw).2 name value coords ++
      raw.drop (insertion_choice raw).1

theorem transparent_nodeTail {name indent coords : List Char}
    (hi : ∀ a ∈ indent, a ≠ '(') (hc : ∀ a ∈ coords, a ≠ '(') :
    Transparent name (nodeTail indent coords) := by
  unfold nodeTail
  simp only [List.append_assoc]
  refine transparent_append (transparent_of_cleanChunk (by decide)) ?_
  refine transparent_append (transparent_of_noParen hc) ?_
  refine transparent_append (transparent_of_cleanChunk (by decide)) ?_
  refine transparent_append (transparent_of_noParen hi) ?_
  refine transparent_append (transparent_of_cleanChunk (by decide)) ?_
  refine transparent_append (transparent_of_noParen hi) ?_
  exact transparent_of_cleanChunk (by decide)

theorem transparent_renderNewProp_other {name m v indent coords : List Char}
    (hne : m ≠ name)
    (hn : ∀ a ∈ name, a ≠ '"') (hm : ∀ a ∈ m, a ≠ '"')
    (hmp : ∀ a ∈ m, a ≠ '(') (hvp : ∀ a ∈ v, a ≠ '(')
    (hi : ∀ a ∈ indent, a ≠ '(') (hc : ∀ a ∈ coords, a ≠ '(') :
    Transparent name (renderNewProp indent m v coords) := by
  unfold renderNewProp
  have hsplit : '\n' :: indent ++ nodeOpen m v ++ nodeTail indent coords =
      '\n' :: (indent ++ (nodeOpen m v ++ nodeTail indent coords)) := by simp
  rw [hsplit]
  refine transparent_cons ?_ ?_
  · intro X
    exact propMatchAt_none_of_head (by decide)
  · refine transparent_append (transparent_of_noParen hi) ?_
    refine transparent_append (transparent_otherNode hne hn hm hmp hvp) ?_
    exact transparent_nodeTail hi hc

/-- One component record, with the fields of the `Component` dataclass.
Offsets are integers because the propagation step adds a possibly negative
length difference. -/
structure Component where
  lib_id : List Char
  reference : List Char
  value : List Char
  footprint : List Char
  lcsc : List Char
  url : List Char
  start_pos : Int
  end_pos : Int
  raw_content : List Char
  properties : List (List Char × List Char)
deriving DecidableEq

/-- The parser state that matters to the patch engine: the buffer and the
tracked components. -/
structure Document where
  content : List Char
  components : List Component
deriving DecidableEq

/-- Map over a list with the position index, starting at `k`. -/
def mapIdxFrom (f : Nat → Component → Component) : Nat → List Component → List Component
  | _, [] => []
  | k, c :: cs => f k c :: mapIdxFrom f (k + 1) cs

theorem mapIdxFrom_getElem? (f : Nat → Component → Component) :
    ∀ (l : List Component) (k j : Nat),
    (mapIdxFrom f k l)[j]? = (l[j]?).map (f (k + j)) := by
  intro l
  induction l with
  | nil => intro k j; simp [mapIdxFrom]
  | cons c cs ih =>
    intro k j
    cases j with
    | zero => simp [mapIdxFrom]
    | succ j =>
      simp only [mapIdxFrom, List.getElem?_cons_succ]
      rw [ih (k + 1) j]
      have he : k + 1 + j = k + (j + 1) := by omega
      rw [he]

theorem mapIdxFrom_length (f : Nat → Component → Component) :
    ∀ (l : List Component) (k : Nat), (mapIdxFrom f k l).length = l.length := by
  intro l
  induction l with
  | nil => intro k; rfl
  | cons c cs ih => intro k; simp [mapIdxFrom, ih]

/-- The single-attribute upsert of the patch engine (§4.3 of the design):
the body of `update_component` specialised to one attribute.  It patches
the record's block text, splices it into the buffer, shifts every other
record that starts after the patched one by the length difference, and
refreshes the patched record's cached block and end offset. -/
def upsertAt (d : Document) (i : Nat) (name value : List Char) : Document :=
  match d.components[i]? with
  | none => d
  | some comp =>
    let new_raw := update_property comp.raw_content name value
    let diff : Int := (new_raw.length : Int) - (comp.raw_content.length : Int)
    { content := d.content.take comp.start_pos.toNat ++ new_raw ++
        d.content.drop (comp.end_pos + 1).toNat,
      components := mapIdxFrom (fun j c =>
        if j = i then
          { c with raw_content := new_raw,
                   end_pos := c.start_pos + (new_raw.length : Int) - 1 }
        else if comp.start_pos < c.start_pos then
          { c with start_pos := c.start_pos + diff, end_pos := c.end_pos + diff }
        else c) 0 d.components }

/-- The `update_component` method itself: patch the part-number attribute
and the reference-link attribute in the record's block, splice once, shift
the other records, and refresh the record's cached fields. -/
def update_component (d : Document) (i : Nat) (lcsc url : List Char) : Document :=
  match d.components[i]? with
  | none => d
  | some comp =>
    let new_raw := update_property
      (update_property comp.raw_content "LCSC".data lcsc) "URL".data url
    let diff : Int := (new_raw.length : Int) - (comp.raw_content.length : Int)
    { content := d.content.take comp.start_pos.toNat ++ new_raw ++
        d.content.drop (comp.end_pos + 1).toNat,
      components := mapIdxFrom (fun j c =>
        if j = i then
          { c with raw_content := new_raw,
                   end_pos := c.start_pos + (new_raw.length : Int) - 1,
                   lcsc := lcsc, url := url }
        else if comp.start_pos < c.start_pos then
          { c with start_pos := c.start_pos + diff, end_pos := c.end_pos + diff }
        else c) 0 d.components }

/-- A record block with a reference attribute but neither a pin
sub-node nor an instances sub-node, and no part-number attribute. -/
def blkNoPin : List Char :=
  "(symbol (lib_id \"D:R\")\n\t(property \"Reference\" \"R1\" (at 5 6 0)\n\t)\n)".data

/-- A document tracking exactly the record of `blkNoPin`. -/
def docNoPin : Document :=
  { content := blkNoPin,
    components := [{ lib_id := "D:R".data, reference := "R1".data,
                     value := [], footprint := [], lcsc := [], url := [],
                     start_pos := 0, end_pos := (blkNoPin.length : Int) - 1,
                     raw_content := blkNoPin, properties := [] }] }

/-- C1, counterexample: on a block with neither a pin-declaration
sub-node nor an instances sub-node and no part-number attribute, the
upsert does not fail and does not leave the buffer unchanged — the
patcher mutates the document, so the claimed `InsertionPointNotFound`
behaviour does not exist in the code. -/
theorem c1_fallback_mutates :
    (hasMatch "LCSC".data blkNoPin = false ∧
     find_pin blkNoPin = none ∧ find_inst blkNoPin = none) ∧
    (upsertAt docNoPin 0 "LCSC".data "C1002".data).content ≠ docNoPin.content := by
  constructor
  · refine ⟨by decide, by decide, by decide⟩
  · decide

/-- C1, amended: when the target attribute is absent and the block
contains neither a pin-declaration sub-node nor an instances sub-node,
the patcher does not fail; it splices the synthesized attribute node
immediately before the block's last closing parenthesis, with a default
two-tab indent. -/
theorem c1_no_insertion_point_falls_back
    {raw name value : List Char}
    (hnm : hasMatch name raw = false)
    (hpin : find_pin raw = none)
    (hinst : find_inst raw = none) :
    update_property raw name value =
      raw.take (rfind_paren raw) ++
      renderNewProp ['\t', '\t'] name value ((find_ref_at raw).getD "0 0 0".data) ++
      raw.drop (rfind_paren raw) := by
  unfold update_property insertion_choice
  rw [hnm, hpin, hinst]
  simp

/-- C1, witness: the amended statement applied to `blkNoPin`. -/
theorem c1_no_insertion_point_falls_back_witness :
    update_property blkNoPin "LCSC".data "C1002".data =
      blkNoPin.take (rfind_paren blkNoPin) ++
      renderNewProp ['\t', '\t'] "LCSC".data "C1002".data
        ((find_ref_at blkNoPin).getD "0 0 0".data) ++
      blkNoPin.drop (rfind_paren blkNoPin) :=
  c1_no_insertion_point_falls_back (by decide) (by decide) (by decide)

/-- C2: after a successful upsert on record `i` with length change
`delta`, every other tracked record `j` has both offsets shifted by
exactly `delta` when its start was greater than the patched record's
start, and is completely unchanged (offsets, cached block, attributes)
otherwise. -/
theorem c2_offset_propagation (d : Document) (i j : Nat) (name value : List Char)
    (hi : i < d.components.length) (hj : j < d.components.length) (hij : j ≠ i) :
    ((d.components[i]).start_pos < (d.components[j]).start_pos →
      (upsertAt d i name value).components[j]? =
        some { d.components[j] with
               start_pos := (d.components[j]).start_pos +
                 (((update_property (d.components[i]).raw_content name value).length : Int) -
                  ((d.components[i]).raw_content.length : Int)),
               end_pos := (d.components[j]).end_pos +
                 (((update_property (d.components[i]).raw_content name value).length : Int) -
                  ((d.components[i]).raw_content.length : Int)) }) ∧
    (¬ (d.components[i]).start_pos < (d.components[j]).start_pos →
      (upsertAt d i name value).components[j]? = some (d.components[j])) := by
  have hup : upsertAt d i name value =
      { content := d.content.take (d.components[i]).start_pos.toNat ++
          update_property (d.components[i]).raw_content name value ++
          d.content.drop ((d.components[i]).end_pos + 1).toNat,
        components := mapIdxFrom (fun j c =>
          if j = i then
            { c with raw_content := update_property (d.components[i]).raw_content name value,
                     end_pos := c.start_pos +
                       ((update_property (d.components[i]).raw_content name value).length : Int) - 1 }
          else if (d.components[i]).start_pos < c.start_pos then
            { c with
                start_pos := c.start_pos +
                  (((update_property (d.components[i]).raw_content name value).length : Int) -
                   ((d.components[i]).raw_content.length : Int)),
                end_pos := c.end_pos +
                  (((update_property (d.components[i]).raw_content name value).length : Int) -
                   ((d.components[i]).raw_content.length : Int)) }
          else c) 0 d.components } := by
    unfold upsertAt
    rw [List.getElem?_eq_getElem hi]
  rw [hup]
  have hmap : (mapIdxFrom (fun j c =>
      if j = i then
        { c with raw_content := update_property (d.components[i]).raw_content name value,
                 end_pos := c.start_pos +
                   ((update_property (d.components[i]).raw_content name value).length : Int) - 1 }
      else if (d.components[i]).start_pos < c.start_pos then
        { c with
            start_pos := c.start_pos +
              (((update_property (d.components[i]).raw_content name value).length : Int) -
               ((d.components[i]).raw_content.length : Int)),
            end_pos := c.end_pos +
              (((update_property (d.components[i]).raw_content name value).length : Int) -
               ((d.components[i]).raw_content.length : Int)) }
      else c) 0 d.components)[j]? =
      some (if j = i then
        { d.components[j] with
          raw_content := update_property (d.components[i]).raw_content name value,
          end_pos := (d.components[j]).start_pos +
            ((update_property (d.components[i]).raw_content name value).length : Int) - 1 }
      else if (d.components[i]).start_pos < (d.components[j]).start_pos then
        { d.components[j] with
            start_pos := (d.components[j]).start_pos +
              (((update_property (d.components[i]).raw_content name value).length : Int) -
               ((d.components[i]).raw_content.length : Int)),
            end_pos := (d.components[j]).end_pos +
              (((update_property (d.components[i]).raw_content name value).length : Int) -
               ((d.components[i]).raw_content.length : Int)) }
      else d.components[j]) := by
    rw [mapIdxFrom_getElem?]
    rw [List.getElem?_eq_getElem hj]
    simp
  constructor
  · intro hlt
    rw [hmap]
    rw [if_neg hij, if_pos hlt]
  · intro hnlt
    rw [hmap]
    rw [if_neg hij, if_neg hnlt]

/-- A two-record document used to instantiate frame-effect statements. -/
def docTwo : Document :=
  { content := blkNoPin ++ blkNoPin,
    components := [
      { lib_id := "D:R".data, reference := "R1".data,
        value := [], footprint := [], lcsc := [], url := [],
        start_pos := 0, end_pos := (blkNoPin.length : Int) - 1,
        raw_content := blkNoPin, properties := [] },
      { lib_id := "D:R".data, reference := "R2".data,
        value := [], footprint := [], lcsc := [], url := [],
        start_pos := (blkNoPin.length : Int), end_pos := 2 * (blkNoPin.length : Int) - 1,
        raw_content := blkNoPin, properties := [] }] }

/-- C2, witness: the propagation statement applied to `docTwo`. -/
theorem c2_offset_propagation_witness :
    ((docTwo.components[0]).start_pos < (docTwo.components[1]).start_pos →
      (upsertAt docTwo 0 "LCSC".data "C1002".data).components[1]? =
        some { docTwo.components[1] with
               start_pos := (docTwo.components[1]).start_pos +
                 (((update_property (docTwo.components[0]).raw_content "LCSC".data "C1002".data).length : Int) -
                  ((docTwo.components[0]).raw_content.length : Int)),
               end_pos := (docTwo.components[1]).end_pos +
                 (((update_property (docTwo.components[0]).raw_content "LCSC".data "C1002".data).length : Int) -
                  ((docTwo.components[0]).raw_content.length : Int)) }) ∧
    (¬ (docTwo.components[0]).start_pos < (docTwo.components[1]).start_pos →
      (upsertAt docTwo 0 "LCSC".data "C1002".data).components[1]? =
        some (docTwo.components[1])) :=
  c2_offset_propagation docTwo 0 1 "LCSC".data "C1002".data
    (by decide) (by decide) (by decide)

theorem upsertAt_parts {d : Document} {i : Nat} {comp : Component}
    (name value : List Char) (hcomp : d.components[i]? = some comp) :
    (upsertAt d i name value).content =
      d.content.take comp.start_pos.toNat ++ update_property comp.raw_content name value ++
        d.content.drop (comp.end_pos + 1).toNat ∧
    (upsertAt d i name value).components[i]? =
      some { comp with
             raw_content := update_property comp.raw_content name value,
             end_pos := comp.start_pos +
               ((update_property comp.raw_content name value).length : Int) - 1 } := by
  unfold upsertAt
  rw [hcomp]
  refine ⟨rfl, ?_⟩
  dsimp only
  rw [mapIdxFrom_getElem?, hcomp]
  simp

/-- One upsert on a record whose block splits as well-delimited text
around a unique node named `N`: the node's value is rewritten in place
and the document keeps the same framing. -/
theorem upsertAt_step {d : Document} {i : Nat} {comp : Component}
    {u t N v0 : List Char} (pre post val : List Char)
    (hcomp : d.components[i]? = some comp)
    (hraw : comp.raw_content = u ++ (nodeOpen N v0 ++ t))
    (hcontent : d.content = pre ++ comp.raw_content ++ post)
    (hstart : comp.start_pos = (pre.length : Int))
    (hend : comp.end_pos = (pre.length : Int) + (comp.raw_content.length : Int) - 1)
    (hu : Transparent N u) (ht : Transparent N t)
    (hv0 : ∀ a ∈ v0, a ≠ '"') :
    (upsertAt d i N val).content = pre ++ (u ++ (nodeOpen N val ++ t)) ++ post ∧
    ∃ comp' : Component, (upsertAt d i N val).components[i]? = some comp' ∧
      comp'.raw_content = u ++ (nodeOpen N val ++ t) ∧
      comp'.start_pos = (pre.length : Int) ∧
      comp'.end_pos = (pre.length : Int) + (((u ++ (nodeOpen N val ++ t)).length : Int)) - 1 := by
  have hupd : update_property comp.raw_content N val = u ++ (nodeOpen N val ++ t) := by
    rw [hraw]
    unfold update_property
    rw [if_pos (hasMatch_node hu hv0)]
    exact subst_node hu ht hv0
  have hparts := upsertAt_parts N val hcomp
  have htake : d.content.take comp.start_pos.toNat = pre := by
    rw [hcontent, hstart, List.append_assoc]
    have he : ((pre.length : Int)).toNat = pre.length := rfl
    rw [he]
    exact List.take_left pre (comp.raw_content ++ post)
  have hdropn : (comp.end_pos + 1).toNat = pre.length + comp.raw_content.length := by
    rw [hend]; omega
  have hdrop : d.content.drop (comp.end_pos + 1).toNat = post := by
    rw [hcontent, hdropn]
    have he : pre.length + comp.raw_content.length = (pre ++ comp.raw_content).length := by simp
    rw [he]
    exact List.drop_left (pre ++ comp.raw_content) post
  constructor
  · rw [hparts.1, htake, hdrop, hupd]
  · refine ⟨_, hparts.2, ?_, ?_, ?_⟩
    · simp [hupd]
    · simpa using hstart
    · simp [hupd, hstart]

/-- A record block with a pin sub-node and no part-number or
reference-link attribute. -/
def blkPin : List Char :=
  "(symbol (lib_id \"D:R\")\n\t(property \"Reference\" \"R1\" (at 5 6 0)\n\t)\n\t(pin \"1\" (x))\n)".data

/-- A document tracking exactly the record of `blkPin`. -/
def docPin : Document :=
  { content := blkPin,
    components := [{ lib_id := "D:R".data, reference := "R1".data,
                     value := [], footprint := [], lcsc := [], url := [],
                     start_pos := 0, end_pos := (blkPin.length : Int) - 1,
                     raw_content := blkPin, properties := [] }] }

set_option maxRecDepth 100000 in
/-- C3, counterexample: when the two attributes are absent and must be
synthesized, the two application orders place the two new nodes in
opposite order before the pin sub-node, so the final buffers differ. -/
theorem c3_order_dependent :
    (upsertAt (upsertAt docPin 0 "LCSC".data "C1002".data) 0 "URL".data "u".data).content ≠
    (upsertAt (upsertAt docPin 0 "URL".data "u".data) 0 "LCSC".data "C1002".data).content := by
  decide

/-- C3, amended: upserts of two distinct attributes on one record yield
the same final buffer in either order when both attributes already exist
as nodes of the record's block (each upsert then rewrites a value in
place); the names and values are plain text without quotes or
parentheses and the rest of the block contains no node of either name. -/
theorem c3_commute_when_existing (d : Document) (i : Nat) (comp : Component)
    (pre post u m t A vA oldA B vB oldB : List Char)
    (hcomp : d.components[i]? = some comp)
    (hraw : comp.raw_content = u ++ (nodeOpen A oldA ++ (m ++ (nodeOpen B oldB ++ t))))
    (hcontent : d.content = pre ++ comp.raw_content ++ post)
    (hstart : comp.start_pos = (pre.length : Int))
    (hend : comp.end_pos = (pre.length : Int) + (comp.raw_content.length : Int) - 1)
    (hAB : A ≠ B)
    (hAq : ∀ a ∈ A, a ≠ '"') (hBq : ∀ a ∈ B, a ≠ '"')
    (hAp : ∀ a ∈ A, a ≠ '(') (hBp : ∀ a ∈ B, a ≠ '(')
    (holdAq : ∀ a ∈ oldA, a ≠ '"') (holdAp : ∀ a ∈ oldA, a ≠ '(')
    (holdBq : ∀ a ∈ oldB, a ≠ '"') (holdBp : ∀ a ∈ oldB, a ≠ '(')
    (hvAp : ∀ a ∈ vA, a ≠ '(') (hvBp : ∀ a ∈ vB, a ≠ '(')
    (huA : Transparent A u) (hmA : Transparent A m) (htA : Transparent A t)
    (huB : Transparent B u) (hmB : Transparent B m) (htB : Transparent B t) :
    (upsertAt (upsertAt d i A vA) i B vB).content =
    (upsertAt (upsertAt d i B vB) i A vA).content := by
  have hBA : B ≠ A := fun h => hAB h.symm
  -- first order: A then B
  obtain ⟨hc1, comp1, hcomp1, hraw1, hstart1, hend1⟩ :=
    upsertAt_step (N := A) pre post vA hcomp hraw hcontent hstart hend huA
      (transparent_append hmA
        (transparent_append (transparent_otherNode hBA hAq hBq hBp holdBp) htA))
      holdAq
  obtain ⟨hc2, comp2, hcomp2, hraw2, hstart2, hend2⟩ :=
    upsertAt_step (N := B)
      (u := u ++ (nodeOpen A vA ++ m)) (t := t) pre post vB hcomp1
      (by rw [hraw1]; simp)
      (by rw [hc1, hraw1])
      hstart1
      (by rw [hend1, hraw1])
      (transparent_append huB
        (transparent_append (transparent_otherNode hAB hBq hAq hAp hvAp) hmB))
      htB holdBq
  -- second order: B then A
  obtain ⟨hc1', comp1', hcomp1', hraw1', hstart1', hend1'⟩ :=
    upsertAt_step (N := B)
      (u := u ++ (nodeOpen A oldA ++ m)) (t := t) pre post vB hcomp
      (by rw [hraw]; simp)
      hcontent hstart
      (by rw [hend])
      (transparent_append huB
        (transparent_append (transparent_otherNode hAB hBq hAq hAp holdAp) hmB))
      htB holdBq
  obtain ⟨hc2', comp2', hcomp2', hraw2', hstart2', hend2'⟩ :=
    upsertAt_step (N := A)
      (u := u) (t := m ++ (nodeOpen B vB ++ t)) pre post vA hcomp1'
      (by rw [hraw1']; simp)
      (by rw [hc1', hraw1'])
      hstart1'
      (by rw [hend1', hraw1'])
      huA
      (transparent_append hmA
        (transparent_append (transparent_otherNode hBA hAq hBq hBp hvBp) htA))
      holdAq
  rw [hc2, hc2']
  simp

/-- Header text of a small record block, before its first attribute node. -/
def hdrTwo : List Char := "(symbol (lib_id \"D:R\")\n\t".data

/-- Blanks between the two attribute nodes of the small block. -/
def midTwo : List Char := "\n\t".data

/-- Tail of the small block after its second attribute node. -/
def tailTwo : List Char := "\n)".data

/-- A record block that already holds both a part-number attribute and a
reference-link attribute. -/
def blkTwoAttrs : List Char :=
  hdrTwo ++ (nodeOpen "LCSC".data "OLD1".data ++
    (midTwo ++ (nodeOpen "URL".data "OLD2".data ++ tailTwo)))

/-- The tracked record of `blkTwoAttrs`. -/
def compTwoAttrs : Component :=
  { lib_id := "D:R".data, reference := "R1".data,
    value := [], footprint := [], lcsc := "OLD1".data, url := "OLD2".data,
    start_pos := 0, end_pos := (blkTwoAttrs.length : Int) - 1,
    raw_content := blkTwoAttrs, properties := [] }

/-- A document tracking exactly the record of `blkTwoAttrs`. -/
def docTwoAttrs : Document :=
  { content := blkTwoAttrs, components := [compTwoAttrs] }

/-- C3, witness: the amended commutation applied to `docTwoAttrs`. -/
theorem c3_commute_when_existing_witness :
    (upsertAt (upsertAt docTwoAttrs 0 "LCSC".data "C1002".data) 0 "URL".data "u".data).content =
    (upsertAt (upsertAt docTwoAttrs 0 "URL".data "u".data) 0 "LCSC".data "C1002".data).content :=
  c3_commute_when_existing docTwoAttrs 0 compTwoAttrs
    [] [] hdrTwo midTwo tailTwo
    "LCSC".data "C1002".data "OLD1".data "URL".data "u".data "OLD2".data
    rfl rfl (by simp [docTwoAttrs, compTwoAttrs]) (by decide)
    (by show (blkTwoAttrs.length : Int) - 1 = ([] : List Char).length + (blkTwoAttrs.length : Int) - 1
        simp)
    (by decide) (by decide) (by decide) (by decide) (by decide)
    (by decide) (by decide) (by decide) (by decide)
    (by decide) (by decide)
    (transparent_of_cleanChunk (by decide)) (transparent_of_cleanChunk (by decide))
    (transparent_of_cleanChunk (by decide))
    (transparent_of_cleanChunk (by decide)) (transparent_of_cleanChunk (by decide))
    (transparent_of_cleanChunk (by decide))

/-- C7: when the record's block already contains the target attribute
node (uniquely), the patcher rewrites only the quoted value substring of
that node; every byte outside that quoted value — the text before the
node, the node's own head and quotes, and everything after — is
byte-identical before and after the update. -/
theorem c7_in_place_value_rewrite {u t name old : List Char} (v : List Char)
    (hu : Transparent name u) (ht : Transparent name t)
    (hold : ∀ a ∈ old, a ≠ '"') :
    update_property (u ++ (nodeOpen name old ++ t)) name v =
      u ++ (nodeOpen name v ++ t) := by
  unfold update_property
  rw [if_pos (hasMatch_node hu hold)]
  exact subst_node hu ht hold

/-- C7, witness: rewriting the part-number value inside `blkTwoAttrs`
leaves every byte outside that quoted value unchanged. -/
theorem c7_in_place_value_rewrite_witness :
    update_property (hdrTwo ++ (nodeOpen "LCSC".data "OLD1".data ++
        (midTwo ++ (nodeOpen "URL".data "OLD2".data ++ tailTwo))))
      "LCSC".data "C1002".data =
      hdrTwo ++ (nodeOpen "LCSC".data "C1002".data ++
        (midTwo ++ (nodeOpen "URL".data "OLD2".data ++ tailTwo))) :=
  c7_in_place_value_rewrite "C1002".data
    (transparent_of_cleanChunk (by decide))
    (transparent_append (transparent_of_cleanChunk (by decide))
      (transparent_append
        (transparent_otherNode (by decide) (by decide) (by decide) (by decide) (by decide))
        (transparent_of_cleanChunk (by decide))))
    (by decide)

/-- C10: when the target attribute is absent and the block has no
parsable `Reference` position hint, the patcher still synthesizes the
node, using the fixed fallback position hint `0 0 0` verbatim in the
rendered node instead of failing. -/
theorem c10_fallback_position_hint {raw name value : List Char}
    (hnm : hasMatch name raw = false)
    (href : find_ref_at raw = none) :
    update_property raw name value =
      raw.take (insertion_choice raw).1 ++
      renderNewProp (insertion_choice raw).2 name value "0 0 0".data ++
      raw.drop (insertion_choice raw).1 := by
  unfold update_property
  rw [hnm, href]
  simp

/-- A record block with a pin sub-node and no reference attribute. -/
def blkNoRef : List Char := "(s\n\t(pin \"1\" (x))\n)".data

/-- C10, witness: the fallback hint statement applied to `blkNoRef`. -/
theorem c10_fallback_position_hint_witness :
    update_property blkNoRef "LCSC".data "C1002".data =
      blkNoRef.take (insertion_choice blkNoRef).1 ++
      renderNewProp (insertion_choice blkNoRef).2 "LCSC".data "C1002".data "0 0 0".data ++
      blkNoRef.drop (insertion_choice blkNoRef).1 :=
  c10_fallback_position_hint (by decide) (by decide)

theorem upsertAt_known_update {d : Document} {i : Nat} {comp : Component}
    {pre post N val R : List Char}
    (hcomp : d.components[i]? = some comp)
    (hcontent : d.content = pre ++ comp.raw_content ++ post)
    (hstart : comp.start_pos = (pre.length : Int))
    (hend : comp.end_pos = (pre.length : Int) + (comp.raw_content.length : Int) - 1)
    (hupd : update_property comp.raw_content N val = R) :
    (upsertAt d i N val).content = pre ++ R ++ post ∧
    ∃ comp' : Component, (upsertAt d i N val).components[i]? = some comp' ∧
      comp'.raw_content = R ∧
      comp'.start_pos = (pre.length : Int) ∧
      comp'.end_pos = (pre.length : Int) + ((R.length : Int)) - 1 := by
  have hparts := upsertAt_parts N val hcomp
  have htake : d.content.take comp.start_pos.toNat = pre := by
    rw [hcontent, hstart, List.append_assoc]
    have he : ((pre.length : Int)).toNat = pre.length := rfl
    rw [he]
    exact List.take_left pre (comp.raw_content ++ post)
  have hdropn : (comp.end_pos + 1).toNat = pre.length + comp.raw_content.length := by
    rw [hend]; omega
  have hdrop : d.content.drop (comp.end_pos + 1).toNat = post := by
    rw [hcontent, hdropn]
    have he : pre.length + comp.raw_content.length = (pre ++ comp.raw_content).length := by simp
    rw [he]
    exact List.drop_left (pre ++ comp.raw_content) post
  constructor
  · rw [hparts.1, htake, hdrop, hupd]
  · refine ⟨_, hparts.2, ?_, ?_, ?_⟩
    · simp [hupd]
    · simpa using hstart
    · simp [hupd, hstart]

/-- One upsert on a record whose block lacks the attribute everywhere,
with a pin-declaration insertion point at the end of the prefix `u`: the
patcher synthesizes a node there and the document keeps the framing. -/
theorem upsertAt_insert_step {d : Document} {i : Nat} {comp : Component}
    {pre post u rest N ind coords : List Char} (val : List Char)
    (hcomp : d.components[i]? = some comp)
    (hraw : comp.raw_content = u ++ rest)
    (hcontent : d.content = pre ++ comp.raw_content ++ post)
    (hstart : comp.start_pos = (pre.length : Int))
    (hend : comp.end_pos = (pre.length : Int) + (comp.raw_content.length : Int) - 1)
    (hu : Transparent N u) (hrest : Transparent N rest)
    (hpin : find_pin comp.raw_content = some (u.length, ind))
    (href : find_ref_at comp.raw_content = some coords) :
    (upsertAt d i N val).content =
      pre ++ (u ++ (renderNewProp ind N val coords ++ rest)) ++ post ∧
    ∃ comp' : Component, (upsertAt d i N val).components[i]? = some comp' ∧
      comp'.raw_content = u ++ (renderNewProp ind N val coords ++ rest) ∧
      comp'.start_pos = (pre.length : Int) ∧
      comp'.end_pos = (pre.length : Int) +
        (((u ++ (renderNewProp ind N val coords ++ rest)).length : Int)) - 1 := by
  have hnm : hasMatch N comp.raw_content = false := by
    rw [hraw, hasMatch_append_transparent hu]
    exact hasMatch_false_of_transparent hrest
  have hupd : update_property comp.raw_content N val =
      u ++ (renderNewProp ind N val coords ++ rest) := by
    unfold update_property
    rw [if_neg (by simp [hnm])]
    have hic : insertion_choice comp.raw_content = (u.length, ind) := by
      unfold insertion_choice
      rw [hpin]
    rw [hic, href]
    simp only [Option.getD_some]
    rw [hraw]
    rw [List.take_left u rest, List.drop_left u rest]
    simp
  exact upsertAt_known_update hcomp hcontent hstart hend hupd

/-- C8: starting from a record whose block lacks the attribute and has a
pin-declaration insertion point, two successive identical upserts leave
the block of the first upsert unchanged — the second call rewrites the
synthesized node in place — and the final block contains exactly one
node of that name, holding the upserted value. -/
theorem c8_upsert_twice_single_node (d : Document) (i : Nat) (comp : Component)
    (pre post u rest ind coords N val : List Char)
    (hcomp : d.components[i]? = some comp)
    (hraw : comp.raw_content = u ++ rest)
    (hcontent : d.content = pre ++ comp.raw_content ++ post)
    (hstart : comp.start_pos = (pre.length : Int))
    (hend : comp.end_pos = (pre.length : Int) + (comp.raw_content.length : Int) - 1)
    (hu : Transparent N u) (hrest : Transparent N rest)
    (hpin : find_pin comp.raw_content = some (u.length, ind))
    (href : find_ref_at comp.raw_content = some coords)
    (hvq : ∀ a ∈ val, a ≠ '"')
    (hindp : ∀ a ∈ ind, a ≠ '(')
    (hcoordsp : ∀ a ∈ coords, a ≠ '(') :
    ∃ c1 c2 : Component,
      (upsertAt d i N val).components[i]? = some c1 ∧
      (upsertAt (upsertAt d i N val) i N val).components[i]? = some c2 ∧
      c2.raw_content = c1.raw_content ∧
      countMatches N c2.raw_content = 1 ∧
      firstMatchVal N c2.raw_content = some val := by
  obtain ⟨hc1, c1, hcomp1, hraw1, hstart1, hend1⟩ :=
    upsertAt_insert_step val hcomp hraw hcontent hstart hend hu hrest hpin href
  have hu' : Transparent N (u ++ ('\n' :: ind)) :=
    transparent_append hu (transparent_of_noParen (by
      intro a ha
      rcases List.mem_cons.mp ha with ha | ha
      · subst ha; decide
      · exact hindp a ha))
  have ht' : Transparent N (nodeTail ind coords ++ rest) :=
    transparent_append (transparent_nodeTail hindp hcoordsp) hrest
  have hsplit : u ++ (renderNewProp ind N val coords ++ rest) =
      (u ++ ('\n' :: ind)) ++ (nodeOpen N val ++ (nodeTail ind coords ++ rest)) := by
    simp [renderNewProp]
  obtain ⟨hc2, c2, hcomp2, hraw2, hstart2, hend2⟩ :=
    upsertAt_step (N := N)
      (u := u ++ ('\n' :: ind)) (t := nodeTail ind coords ++ rest) pre post val hcomp1
      (by rw [hraw1, hsplit])
      (by rw [hc1, hraw1])
      hstart1
      (by rw [hend1, hraw1])
      hu' ht' hvq
  refine ⟨c1, c2, hcomp1, hcomp2, ?_, ?_, ?_⟩
  · rw [hraw2, hraw1, hsplit]
  · rw [hraw2]
    exact countMatches_node hu' ht' hvq
  · rw [hraw2]
    exact firstMatchVal_node hu' hvq

/-- The part of `blkPin` before its pin insertion point. -/
def uPin : List Char :=
  "(symbol (lib_id \"D:R\")\n\t".data ++
    (nodeOpen "Reference".data "R1".data ++ " (at 5 6 0)\n\t)".data)

/-- The part of `blkPin` from its pin insertion point on. -/
def restPin : List Char := "\n\t(pin \"1\" (x))\n)".data

/-- The tracked record of `blkPin`, as `docPin` stores it. -/
def compPinW : Component :=
  { lib_id := "D:R".data, reference := "R1".data,
    value := [], footprint := [], lcsc := [], url := [],
    start_pos := 0, end_pos := (blkPin.length : Int) - 1,
    raw_content := blkPin, properties := [] }

/-- C8, witness: two identical part-number upserts on `docPin` leave one
node holding the upserted value. -/
theorem c8_upsert_twice_single_node_witness :
    ∃ c1 c2 : Component,
      (upsertAt docPin 0 "LCSC".data "C1002".data).components[0]? = some c1 ∧
      (upsertAt (upsertAt docPin 0 "LCSC".data "C1002".data) 0
        "LCSC".data "C1002".data).components[0]? = some c2 ∧
      c2.raw_content = c1.raw_content ∧
      countMatches "LCSC".data c2.raw_content = 1 ∧
      firstMatchVal "LCSC".data c2.raw_content = some "C1002".data :=
  c8_upsert_twice_single_node docPin 0 compPinW [] [] uPin restPin
    ['\t'] "5 6 0".data "LCSC".data "C1002".data
    rfl (by decide) (by simp [docPin, compPinW]) (by decide) (by decide)
    (transparent_append (transparent_of_cleanChunk (by decide))
      (transparent_append
        (transparent_otherNode (by decide) (by decide) (by decide) (by decide) (by decide))
        (transparent_of_cleanChunk (by decide))))
    (transparent_of_cleanChunk (by decide))
    (by decide) (by decide) (by decide) (by decide) (by decide)

/-- Splice `t` into `buf` at offset `o`: `buf[:o] + t + buf[o:]`. -/
def splice (buf : List Char) (o : Nat) (t : List Char) : List Char :=
  buf.take o ++ t ++ buf.drop o

/-- Insert one pair into a list kept sorted by descending offset. -/
def insDesc (x : Nat × List Char) : List (Nat × List Char) → List (Nat × List Char)
  | [] => [x]
  | y :: ys => if y.1 ≤ x.1 then x :: y :: ys else y :: insDesc x ys

/-- Sort by insertion offset descending, as the batch injector does. -/
def sortDescIns (l : List (Nat × List Char)) : List (Nat × List Char) :=
  l.foldr insDesc []

/-- The batch application loop of `add_lcsc_properties`: sort the
computed `(insertion_offset, text)` pairs by offset descending and
splice each into the buffer in that order. -/
def apply_modifications (buf : List Char) (mods : List (Nat × List Char)) : List Char :=
  (sortDescIns mods).foldl (fun b p => splice b p.1 p.2) buf

/-- Per-record offset bookkeeping, the &#0167;4.3 alternative: apply the
insertions one at a time in the given order; after an insertion at
offset `o`, every remaining offset greater than `o` grows by the
inserted length.  The fuel argument counts the remaining insertions. -/
def apply_bookkeepingF : Nat → List Char → List (Nat × List Char) → List Char
  | 0, buf, _ => buf
  | _ + 1, buf, [] => buf
  | f + 1, buf, (o, t) :: rest =>
    apply_bookkeepingF f (splice buf o t)
      (rest.map fun y => if o < y.1 then (y.1 + t.length, y.2) else y)

def apply_bookkeeping (buf : List Char) (mods : List (Nat × List Char)) : List Char :=
  apply_bookkeepingF mods.length buf mods

theorem apply_bookkeeping_nil {buf : List Char} : apply_bookkeeping buf [] = buf := rfl

theorem apply_bookkeeping_cons {buf t : List Char} {o : Nat}
    {rest : List (Nat × List Char)} :
    apply_bookkeeping buf ((o, t) :: rest) =
      apply_bookkeeping (splice buf o t)
        (rest.map fun y => if o < y.1 then (y.1 + t.length, y.2) else y) := by
  unfold apply_bookkeeping
  simp only [List.length_cons, apply_bookkeepingF, List.length_map]

/-- Offsets strictly increase along the list. -/
def ascendingB : List (Nat × List Char) → Bool
  | [] => true
  | x :: rest => rest.all (fun y => x.1 < y.1) && ascendingB rest

/-- Right fold of splices: the highest offset is applied first. -/
def applyR (buf : List Char) (mods : List (Nat × List Char)) : List Char :=
  mods.foldr (fun p b => splice b p.1 p.2) buf

theorem splice_length {b t : List Char} {o : Nat} (h : o ≤ b.length) :
    (splice b o t).length = b.length + t.length := by
  simp [splice]
  omega

theorem length_le_splice {b t : List Char} {o : Nat} :
    b.length ≤ (splice b o t).length := by
  simp [splice]
  omega

theorem length_le_applyR {b : List Char} :
    ∀ {mods : List (Nat × List Char)}, b.length ≤ (applyR b mods).length := by
  intro mods
  induction mods with
  | nil => exact Nat.le_refl _
  | cons x xs ih =>
    calc b.length ≤ (applyR b xs).length := ih
    _ ≤ (splice (applyR b xs) x.1 x.2).length := length_le_splice
    _ = (applyR b (x :: xs)).length := rfl

theorem insDesc_last {x : Nat × List Char} :
    ∀ {l : List (Nat × List Char)}, (∀ y ∈ l, x.1 < y.1) →
    insDesc x l = l ++ [x] := by
  intro l
  induction l with
  | nil => intro _; rfl
  | cons y ys ih =>
    intro h
    have hy := h y (by simp)
    simp only [insDesc]
    rw [if_neg (by omega)]
    rw [ih fun z hz => h z (by simp [hz])]
    rfl

theorem sortDescIns_of_ascending :
    ∀ {l : List (Nat × List Char)}, ascendingB l = true →
    sortDescIns l = l.reverse := by
  intro l
  induction l with
  | nil => intro _; rfl
  | cons x xs ih =>
    intro h
    simp only [ascendingB, Bool.and_eq_true, List.all_eq_true, decide_eq_true_eq] at h
    obtain ⟨h1, h2⟩ := h
    have : sortDescIns (x :: xs) = insDesc x (sortDescIns xs) := rfl
    rw [this, ih h2, insDesc_last (fun y hy => h1 y (List.mem_reverse.mp hy))]
    simp

theorem splice_comm {b t1 t2 : List Char} {o1 o2 : Nat}
    (h12 : o1 < o2) (h2 : o2 ≤ b.length) :
    splice (splice b o2 t2) o1 t1 = splice (splice b o1 t1) (o2 + t1.length) t2 := by
  have hlt1 : (b.take o2).length = o2 := by simp; omega
  have hlt2 : (b.take o1 ++ t1).length = o1 + t1.length := by simp; omega
  have hL : splice (splice b o2 t2) o1 t1 =
      b.take o1 ++ t1 ++ ((b.drop o1).take (o2 - o1) ++ (t2 ++ b.drop o2)) := by
    have e0 : splice b o2 t2 = b.take o2 ++ (t2 ++ b.drop o2) := by
      unfold splice; simp
    have e1 : (splice b o2 t2).take o1 = b.take o1 := by
      rw [e0, List.take_append_of_le_length (by omega)]
      rw [List.take_take]
      congr 1
      omega
    have e2 : (splice b o2 t2).drop o1 =
        (b.drop o1).take (o2 - o1) ++ (t2 ++ b.drop o2) := by
      rw [e0, List.drop_append_of_le_length (by omega)]
      rw [List.drop_take]
    show (splice b o2 t2).take o1 ++ t1 ++ (splice b o2 t2).drop o1 = _
    rw [e1, e2]
  have hR : splice (splice b o1 t1) (o2 + t1.length) t2 =
      b.take o1 ++ t1 ++ ((b.drop o1).take (o2 - o1) ++ (t2 ++ b.drop o2)) := by
    have e0 : splice b o1 t1 = (b.take o1 ++ t1) ++ b.drop o1 := by
      unfold splice; simp
    have e1 : (splice b o1 t1).take (o2 + t1.length) =
        (b.take o1 ++ t1) ++ (b.drop o1).take (o2 - o1) := by
      rw [e0, List.take_append_eq_append_take]
      rw [List.take_of_length_le (by omega)]
      rw [hlt2]
      congr 2
      omega
    have e2 : (splice b o1 t1).drop (o2 + t1.length) = b.drop o2 := by
      rw [e0, List.drop_append_eq_append_drop]
      rw [List.drop_of_length_le (by omega)]
      rw [hlt2]
      have he : o2 + t1.length - (o1 + t1.length) = o2 - o1 := by omega
      rw [he, List.nil_append, List.drop_drop]
      congr 1
      omega
    show (splice b o1 t1).take (o2 + t1.length) ++ t2 ++ (splice b o1 t1).drop (o2 + t1.length) = _
    rw [e1, e2]
    simp
  rw [hL, hR]

theorem splice_applyR {b t : List Char} {o : Nat} :
    ∀ {rest : List (Nat × List Char)},
    (∀ y ∈ rest, o < y.1 ∧ y.1 ≤ b.length) →
    splice (applyR b rest) o t =
      applyR (splice b o t) (rest.map fun y => (y.1 + t.length, y.2)) := by
  intro rest
  induction rest with
  | nil => intro _; rfl
  | cons y ys ih =>
    intro h
    obtain ⟨hy1, hy2⟩ := h y (by simp)
    have hys : ∀ z ∈ ys, o < z.1 ∧ z.1 ≤ b.length := fun z hz => h z (by simp [hz])
    have e1 : applyR b (y :: ys) = splice (applyR b ys) y.1 y.2 := rfl
    rw [e1]
    have hy2' : y.1 ≤ (applyR b ys).length :=
      le_trans hy2 length_le_applyR
    rw [splice_comm hy1 hy2']
    rw [ih hys]
    rfl

theorem ascendingB_shift {t : List Char} :
    ∀ {rest : List (Nat × List Char)}, ascendingB rest = true →
    ascendingB (rest.map fun y => (y.1 + t.length, y.2)) = true := by
  intro rest
  induction rest with
  | nil => intro _; rfl
  | cons y ys ih =>
    intro h
    simp only [ascendingB, Bool.and_eq_true, List.all_eq_true, decide_eq_true_eq] at h
    obtain ⟨h1, h2⟩ := h
    simp only [List.map_cons, ascendingB, Bool.and_eq_true, List.all_eq_true]
    refine ⟨?_, ih h2⟩
    intro z hz
    obtain ⟨w, hw, hwz⟩ := List.mem_map.mp hz
    subst hwz
    have := h1 w hw
    simp
    omega

theorem apply_bookkeeping_eq_applyR :
    ∀ (n : Nat) (mods : List (Nat × List Char)) (b : List Char), mods.length ≤ n →
    ascendingB mods = true → (∀ y ∈ mods, y.1 ≤ b.length) →
    apply_bookkeeping b mods = applyR b mods := by
  intro n
  induction n with
  | zero =>
    intro mods b hlen _ _
    have : mods = [] := List.length_eq_zero.mp (Nat.le_zero.mp hlen)
    subst this
    rfl
  | succ n ih =>
    intro mods b hlen hasc hb
    cases mods with
    | nil => rfl
    | cons x xs =>
      obtain ⟨o, t⟩ := x
      simp only [ascendingB, Bool.and_eq_true, List.all_eq_true, decide_eq_true_eq] at hasc
      obtain ⟨h1, h2⟩ := hasc
      have ho : o ≤ b.length := hb (o, t) (by simp)
      have hmap : (xs.map fun y => if o < y.1 then (y.1 + t.length, y.2) else y) =
          xs.map fun y => (y.1 + t.length, y.2) := by
        apply List.map_congr_left
        intro y hy
        rw [if_pos (h1 y hy)]
      calc apply_bookkeeping b ((o, t) :: xs)
          = apply_bookkeeping (splice b o t) (xs.map fun y => (y.1 + t.length, y.2)) := by
            rw [apply_bookkeeping_cons, hmap]
        _ = applyR (splice b o t) (xs.map fun y => (y.1 + t.length, y.2)) := by
            apply ih _ _ (by simp at hlen ⊢; omega) (ascendingB_shift h2)
            intro y hy
            obtain ⟨w, hw, hwz⟩ := List.mem_map.mp hy
            subst hwz
            have := hb w (by simp [hw])
            rw [splice_length ho]
            simp at this ⊢
            omega
        _ = splice (applyR b xs) o t := by
            rw [splice_applyR fun y hy => ⟨h1 y hy, hb y (by simp [hy])⟩]
        _ = applyR b ((o, t) :: xs) := rfl

/-- C4: on a set of insertions computed against the original buffer (in
ascending offset order, every offset within the buffer), splicing them
sorted by offset descending — the batch injector's loop — produces the
same final buffer as applying them one at a time with per-record offset
bookkeeping. -/
theorem c4_batch_equals_bookkeeping (buf : List Char) (mods : List (Nat × List Char))
    (hasc : ascendingB mods = true) (hb : ∀ y ∈ mods, y.1 ≤ buf.length) :
    apply_modifications buf mods = apply_bookkeeping buf mods := by
  unfold apply_modifications
  rw [sortDescIns_of_ascending hasc]
  rw [List.foldl_reverse]
  rw [apply_bookkeeping_eq_applyR mods.length mods buf (le_refl _) hasc hb]
  rfl

/-- C4, witness: two insertions applied both ways to a small buffer. -/
theorem c4_batch_equals_bookkeeping_witness :
    apply_modifications "abcdef".data [(1, "xx".data), (4, "y".data)] =
    apply_bookkeeping "abcdef".data [(1, "xx".data), (4, "y".data)] :=
  c4_batch_equals_bookkeeping "abcdef".data [(1, "xx".data), (4, "y".data)]
    (by decide) (by decide)

/-- The scanning state of the delimiter matcher: nesting depth, the
quoted-text flag, and the previous character (used for the escape test). -/
structure ScanSt where
  depth : Int
  inStr : Bool
  prev : Option Char
deriving DecidableEq

/-- One character step of the delimiter scanner's state, mirroring the
loop body of `_find_matching_paren`: an unescaped double quote toggles
the quoted-text flag; outside quoted text an opening delimiter increments
the depth and a closing one decrements it. -/
def scanStep (st : ScanSt) (c : Char) : ScanSt :=
  if c = '"' ∧ st.prev ≠ some '\\' then
    { depth := st.depth, inStr := !st.inStr, prev := some c }
  else if st.inStr = false ∧ c = '(' then
    { depth := st.depth + 1, inStr := st.inStr, prev := some c }
  else if st.inStr = false ∧ c = ')' then
    { depth := st.depth - 1, inStr := st.inStr, prev := some c }
  else
    { depth := st.depth, inStr := st.inStr, prev := some c }

/-- The scanner loop: stops at the closing delimiter that takes the depth
from one to zero outside quoted text, else steps the state; `-1` when the
characters run out first. -/
def fmpAux : List Char → ScanSt → Nat → Int
  | [], _, _ => -1
  | c :: cs, st, i =>
    if st.inStr = false ∧ c = ')' ∧ st.depth = 1 then (i : Int)
    else fmpAux cs (scanStep st c) (i + 1)

/-- `_find_matching_paren`: scan from `start` with depth zero, outside
quoted text, the previous character taken from the buffer. -/
def find_matching_paren (content : List Char) (start : Nat) : Int :=
  fmpAux (content.drop start)
    { depth := 0, inStr := false,
      prev := if start = 0 then none else content[start - 1]? }
    start

/-- Position `k` of the scan is the stopping point: the character there
is a closing delimiter, and the state folded over the preceding
characters is outside quoted text at depth one. -/
def StopHere (cs : List Char) (st : ScanSt) (k : Nat) : Prop :=
  cs[k]? = some ')' ∧
  ((cs.take k).foldl scanStep st).inStr = false ∧
  ((cs.take k).foldl scanStep st).depth = 1

/-- Recursive form of the least stopping position. -/
def specFind : List Char → ScanSt → Option Nat
  | [], _ => none
  | c :: cs, st =>
    if st.inStr = false ∧ c = ')' ∧ st.depth = 1 then some 0
    else (specFind cs (scanStep st c)).map (· + 1)

theorem fmpAux_eq_specFind : ∀ (cs : List Char) (st : ScanSt) (i : Nat),
    fmpAux cs st i =
      match specFind cs st with
      | some k => ((i + k : Nat) : Int)
      | none => -1 := by
  intro cs
  induction cs with
  | nil => intro st i; rfl
  | cons c cs ih =>
    intro st i
    simp only [fmpAux, specFind]
    split
    · simp
    · rw [ih (scanStep st c) (i + 1)]
      cases h : specFind cs (scanStep st c) with
      | none => simp
      | some k =>
        simp only [Option.map_some']
        have : i + 1 + k = i + (k + 1) := by omega
        rw [this]

theorem stopHere_zero_iff {c : Char} {cs : List Char} {st : ScanSt} :
    StopHere (c :: cs) st 0 ↔ (st.inStr = false ∧ c = ')' ∧ st.depth = 1) := by
  unfold StopHere
  simp only [List.getElem?_cons_zero, List.take_zero, List.foldl_nil, Option.some.injEq]
  constructor
  · rintro ⟨h1, h2, h3⟩; exact ⟨h2, h1, h3⟩
  · rintro ⟨h1, h2, h3⟩; exact ⟨h2, h1, h3⟩

theorem stopHere_succ_iff {c : Char} {cs : List Char} {st : ScanSt} {k : Nat} :
    StopHere (c :: cs) st (k + 1) ↔ StopHere cs (scanStep st c) k := by
  unfold StopHere
  simp [List.take_succ_cons]

theorem specFind_some : ∀ {cs : List Char} {st : ScanSt} {k : Nat},
    specFind cs st = some k →
    StopHere cs st k ∧ ∀ j < k, ¬ StopHere cs st j := by
  intro cs
  induction cs with
  | nil => intro st k h; simp [specFind] at h
  | cons c cs ih =>
    intro st k h
    simp only [specFind] at h
    split at h
    · rename_i hc
      have hk : k = 0 := by simpa using h.symm
      subst hk
      refine ⟨stopHere_zero_iff.mpr hc, ?_⟩
      intro j hj
      omega
    · rename_i hc
      cases hs : specFind cs (scanStep st c) with
      | none => rw [hs] at h; exact absurd h (by simp)
      | some k' =>
        rw [hs] at h
        simp only [Option.map_some', Option.some.injEq] at h
        subst h
        obtain ⟨ih1, ih2⟩ := ih hs
        refine ⟨stopHere_succ_iff.mpr ih1, ?_⟩
        intro j hj
        cases j with
        | zero => exact fun hsh => hc (stopHere_zero_iff.mp hsh)
        | succ j' =>
          intro hsh
          exact ih2 j' (by omega) (stopHere_succ_iff.mp hsh)

theorem specFind_none : ∀ {cs : List Char} {st : ScanSt},
    specFind cs st = none → ∀ j, ¬ StopHere cs st j := by
  intro cs
  induction cs with
  | nil =>
    intro st _ j
    unfold StopHere
    simp
  | cons c cs ih =>
    intro st h j
    simp only [specFind] at h
    split at h
    · exact absurd h (by simp)
    · rename_i hc
      cases hs : specFind cs (scanStep st c) with
      | none =>
        cases j with
        | zero => exact fun hsh => hc (stopHere_zero_iff.mp hsh)
        | succ j' => exact fun hsh => ih hs j' (stopHere_succ_iff.mp hsh)
      | some k' => rw [hs] at h; exact absurd h (by simp)

/-- C5: for a start position holding an opening delimiter, the scanner
returns exactly the least offset whose character is a closing delimiter
reached outside quoted text at depth one — the delimiter that brings the
nesting depth back to zero under the quote-aware counting discipline —
and returns `-1` exactly when no such offset exists before the buffer
ends; it never returns any other position. -/
theorem c5_matcher_characterization (content : List Char) (start : Nat)
    (hstart : content[start]? = some '(') :
    (∀ i : Nat, find_matching_paren content start = (i : Int) →
       start ≤ i ∧
       StopHere (content.drop start)
         { depth := 0, inStr := false,
           prev := if start = 0 then none else content[start - 1]? } (i - start) ∧
       ∀ j < i - start, ¬ StopHere (content.drop start)
         { depth := 0, inStr := false,
           prev := if start = 0 then none else content[start - 1]? } j) ∧
    (find_matching_paren content start = -1 →
       ∀ j, ¬ StopHere (content.drop start)
         { depth := 0, inStr := false,
           prev := if start = 0 then none else content[start - 1]? } j) := by
  have faux_some : ∀ {cs : List Char} {st : ScanSt} {k : Nat} (i : Nat),
      specFind cs st = some k → fmpAux cs st i = ((i + k : Nat) : Int) := by
    intro cs st k i h
    rw [fmpAux_eq_specFind, h]
  have faux_none : ∀ {cs : List Char} {st : ScanSt} (i : Nat),
      specFind cs st = none → fmpAux cs st i = -1 := by
    intro cs st i h
    rw [fmpAux_eq_specFind, h]
  unfold find_matching_paren
  cases hs : specFind (content.drop start)
      { depth := 0, inStr := false,
        prev := if start = 0 then none else content[start - 1]? } with
  | some k =>
    obtain ⟨h1, h2⟩ := specFind_some hs
    simp only [faux_some start hs]
    constructor
    · intro i hi
      have hik : i = start + k := by omega
      subst hik
      refine ⟨by omega, ?_, ?_⟩
      · have he : start + k - start = k := by omega
        rw [he]; exact h1
      · intro j hj
        exact h2 j (by omega)
    · intro h
      exfalso
      omega
  | none =>
    simp only [faux_none start hs]
    constructor
    · intro i hi
      exfalso
      omega
    · intro _
      exact specFind_none hs

/-- C5, witness: the characterization applied to a buffer whose closing
delimiter is preceded by a quoted closing delimiter. -/
theorem c5_matcher_characterization_witness :
    (∀ i : Nat, find_matching_paren "(a\")\"b)".data 0 = (i : Int) →
       0 ≤ i ∧
       StopHere ("(a\")\"b)".data.drop 0)
         { depth := 0, inStr := false,
           prev := if 0 = 0 then none else "(a\")\"b)".data[0 - 1]? } (i - 0) ∧
       ∀ j < i - 0, ¬ StopHere ("(a\")\"b)".data.drop 0)
         { depth := 0, inStr := false,
           prev := if 0 = 0 then none else "(a\")\"b)".data[0 - 1]? } j) ∧
    (find_matching_paren "(a\")\"b)".data 0 = -1 →
       ∀ j, ¬ StopHere ("(a\")\"b)".data.drop 0)
         { depth := 0, inStr := false,
           prev := if 0 = 0 then none else "(a\")\"b)".data[0 - 1]? } j) :=
  c5_matcher_characterization "(a\")\"b)".data 0 (by decide)

/-- The block-opener pattern of the extractor: a `(symbol` head, blanks,
and a `(lib_id "<id>")` sub-node with a nonempty quoted identifier. -/
def openerHere (s : List Char) : Bool :=
  match lit "(symbol".data s with
  | none => false
  | some s1 =>
    match ws1 s1 with
    | none => false
    | some p1 =>
      match lit "(lib_id".data p1.2 with
      | none => false
      | some s2 =>
        match ws1 s2 with
        | none => false
        | some p2 =>
          match p2.2 with
          | '"' :: s3 =>
            if (s3.takeWhile (fun c => c ≠ '"')).isEmpty then false
            else
              match s3.dropWhile (fun c => c ≠ '"') with
              | '"' :: ')' :: _ => true
              | _ => false
          | _ => false

/-- Leftmost offset of a block opener. -/
def findOpener : List Char → Option Nat
  | [] => none
  | c :: s =>
    if openerHere (c :: s) then some 0
    else (findOpener s).map (· + 1)

/-- The `(lib_id "<id>")` pattern, yielding the quoted identifier. -/
def libIdHere (s : List Char) : Option (List Char) :=
  (lit "(lib_id".data s).bind fun s1 =>
  (ws1 s1).bind fun p =>
  match p.2 with
  | '"' :: s3 =>
    if (s3.takeWhile (fun c => c ≠ '"')).isEmpty then none
    else
      match s3.dropWhile (fun c => c ≠ '"') with
      | '"' :: ')' :: _ => some (s3.takeWhile (fun c => c ≠ '"'))
      | _ => none
  | _ => none

/-- Leftmost `lib_id` identifier in a block. -/
def find_lib_id : List Char → Option (List Char)
  | [] => none
  | c :: s =>
    match libIdHere (c :: s) with
    | some lib => some lib
    | none => find_lib_id s

/-- The attribute-node pattern of the extractor: quoted name, quoted
value, blanks and a position hint `(at ...)`, with the same backtracking
rule for a hint holding only blanks.  Returns the name, the value, and
the remainder after the hint's closing parenthesis, where the
non-overlapping scan resumes. -/
def parsePropHere (s : List Char) : Option (List Char × List Char × List Char) :=
  (lit "(property".data s).bind fun s1 =>
  (ws1 s1).bind fun p1 =>
  (expectQ p1.2).bind fun s2 =>
  if (s2.takeWhile (fun c => c ≠ '"')).isEmpty then none else
  (expectQ (s2.dropWhile (fun c => c ≠ '"'))).bind fun s3 =>
  (ws1 s3).bind fun p2 =>
  (expectQ p2.2).bind fun s4 =>
  (expectQ (s4.dropWhile (fun c => c ≠ '"'))).bind fun s5 =>
  (lit "(at".data (s5.dropWhile isWs)).bind fun s6 =>
  (ws1 s6).bind fun p3 =>
  match p3.2.dropWhile (fun c => c ≠ ')') with
  | ')' :: rest =>
    if (p3.2.takeWhile (fun c => c ≠ ')')).isEmpty then
      if 2 ≤ p3.1.length then
        some (s2.takeWhile (fun c => c ≠ '"'), s4.takeWhile (fun c => c ≠ '"'), rest)
      else none
    else some (s2.takeWhile (fun c => c ≠ '"'), s4.takeWhile (fun c => c ≠ '"'), rest)
  | _ => none

/-- Scan a block for attribute nodes, non-overlapping and left to right;
fuel bounds the scanning steps. -/
def collectPropsF : Nat → List Char → List (List Char × List Char)
  | 0, _ => []
  | _ + 1, [] => []
  | f + 1, c :: s =>
    match parsePropHere (c :: s) with
    | some (nm, v, rest) => (nm, v) :: collectPropsF f rest
    | none => collectPropsF f s

/-- All attribute nodes of a block, in scan order. -/
def collectProps (s : List Char) : List (List Char × List Char) :=
  collectPropsF s.length s

/-- Dictionary lookup over the scanned nodes: the last assignment to a
key wins, as for the Python dict built by the extractor. -/
def propsGet (ps : List (List Char × List Char)) (key : List Char) : Option (List Char) :=
  ps.foldl (fun acc p => if p.1 = key then some p.2 else acc) none

/-- Substring containment, as Python's `in` on strings. -/
def containsSub (pat : List Char) : List Char → Bool
  | [] => pat.isEmpty
  | c :: s => pat.isPrefixOf (c :: s) || containsSub pat s

/-- `_parse_symbol_block`: read the type identifier, discard power
symbols, collect the attribute mapping, and discard blocks with a
missing, empty or reserved-marker reference. -/
def parse_symbol_block (raw : List Char) (s e : Int) : Option Component :=
  match find_lib_id raw with
  | none => none
  | some lib =>
    if "power:".data.isPrefixOf lib || containsSub ":PWR_".data lib then none
    else
      let ps := collectProps raw
      let rf := (propsGet ps "Reference".data).getD []
      if rf.isEmpty || rf.head? = some '#' then none
      else some
        { lib_id := lib, reference := rf,
          value := (propsGet ps "Value".data).getD [],
          footprint := (propsGet ps "Footprint".data).getD [],
          lcsc := (propsGet ps "LCSC".data).getD [],
          url := (propsGet ps "URL".data).getD [],
          start_pos := s, end_pos := e, raw_content := raw, properties := ps }

/-- The extraction loop of `parse`: search for the next block opener,
match its delimiter, parse the block, and continue after it (or one past
the opener when the delimiter scan fails).  Fuel bounds the iterations;
the loop advances by at least one position each time. -/
def parseFromF : Nat → List Char → Nat → List Component
  | 0, _, _ => []
  | f + 1, content, pos =>
    match findOpener (content.drop pos) with
    | none => []
    | some r =>
      let start := pos + r
      let e := find_matching_paren content start
      if e = -1 then parseFromF f content (start + 1)
      else
        let en := e.toNat
        match parse_symbol_block ((content.drop start).take (en + 1 - start))
            (start : Int) (en : Int) with
        | some comp => comp :: parseFromF f content (en + 1)
        | none => parseFromF f content (en + 1)

/-- Extract the tracked components of a buffer. -/
def parse (content : List Char) : List Component :=
  parseFromF (content.length + 1) content 0

theorem parse_symbol_block_some {raw : List Char} {s e : Int} {comp : Component}
    (h : parse_symbol_block raw s e = some comp) :
    comp.reference ≠ [] ∧ comp.reference.head? ≠ some '#' ∧
    "power:".data.isPrefixOf comp.lib_id = false ∧
    containsSub ":PWR_".data comp.lib_id = false := by
  unfold parse_symbol_block at h
  cases hl : find_lib_id raw with
  | none => rw [hl] at h; exact absurd h (by simp)
  | some lib =>
    rw [hl] at h
    dsimp only at h
    split at h
    · exact absurd h (by simp)
    · rename_i hpw
      split at h
      · exact absurd h (by simp)
      · rename_i hrf
        simp only [Option.some.injEq] at h
        subst h
        simp only [Bool.or_eq_true, not_or] at hpw
        rw [Bool.or_eq_true, not_or] at hrf
        obtain ⟨hrf1, hrf2⟩ := hrf
        refine ⟨?_, ?_, ?_, ?_⟩
        · intro hnil
          apply hrf1
          rw [List.isEmpty_iff]
          exact hnil
        · intro hhd
          apply hrf2
          rw [decide_eq_true_eq]
          exact hhd
        · rw [← Bool.not_eq_true]
          exact hpw.1
        · rw [← Bool.not_eq_true]
          exact hpw.2

theorem parseFromF_mem {content : List Char} :
    ∀ {f pos : Nat} {comp : Component}, comp ∈ parseFromF f content pos →
    ∃ (raw : List Char) (s e : Int), parse_symbol_block raw s e = some comp := by
  intro f
  induction f with
  | zero => intro pos comp h; simp [parseFromF] at h
  | succ f ih =>
    intro pos comp h
    simp only [parseFromF] at h
    cases ho : findOpener (content.drop pos) with
    | none => rw [ho] at h; simp at h
    | some r =>
      rw [ho] at h
      dsimp only at h
      split at h
      · exact ih h
      · split at h
        · rename_i comp' hsome
          rcases List.mem_cons.mp h with hh | hh
          · subst hh
            exact ⟨_, _, _, hsome⟩
          · exact ih hh
        · exact ih h

/-- C6: no record of the extracted Record Set has an empty or absent
reference, none has a reference beginning with the reserved marker `#`,
and none has a power-category type identifier (a `power:` library prefix
or a `:PWR_` infragment), the two guards being enforced independently by
the block parser. -/
theorem c6_extraction_excludes (content : List Char) (comp : Component)
    (h : comp ∈ parse content) :
    comp.reference ≠ [] ∧ comp.reference.head? ≠ some '#' ∧
    "power:".data.isPrefixOf comp.lib_id = false ∧
    containsSub ":PWR_".data comp.lib_id = false := by
  obtain ⟨raw, s, e, hsome⟩ := parseFromF_mem h
  exact parse_symbol_block_some hsome

/-- The record extracted from `blkPin`. -/
def parsedPinComp : Component :=
  { lib_id := "D:R".data, reference := "R1".data, value := [], footprint := [],
    lcsc := [], url := [], start_pos := 0, end_pos := 80,
    raw_content := blkPin, properties := [("Reference".data, "R1".data)] }

/-- C6, witness: the exclusion statement applied to the record extracted
from `blkPin`. -/
theorem c6_extraction_excludes_witness :
    parsedPinComp.reference ≠ [] ∧ parsedPinComp.reference.head? ≠ some '#' ∧
    "power:".data.isPrefixOf parsedPinComp.lib_id = false ∧
    containsSub ":PWR_".data parsedPinComp.lib_id = false :=
  c6_extraction_excludes blkPin parsedPinComp (by decide)

/-- Python `str.strip`: drop blanks from both ends. -/
def pyStrip (s : List Char) : List Char :=
  ((s.dropWhile isWs).reverse.dropWhile isWs).reverse

/-- ASCII uppercasing of one character, as `str.upper` acts on these
identifiers. -/
def upperAscii (c : Char) : Char :=
  if 'a' ≤ c ∧ c ≤ 'z' then Char.ofNat (c.toNat - 32) else c

/-- Python `str.upper` over the buffer. -/
def pyUpper (s : List Char) : List Char := s.map upperAscii

/-- An ASCII digit, as `str.isdigit` accepts on these identifiers. -/
def isAsciiDigit (c : Char) : Bool := '0' ≤ c && c ≤ '9'

/-- The command-line prompt's manual-identifier test
(`prompt_selection`): the stripped, uppercased input is nonempty and
starts with `C`. -/
def cliManualAccepts (s : List Char) : Bool :=
  let t := pyUpper (pyStrip s)
  !t.isEmpty && decide (t.head? = some 'C')

/-- The dialog's manual-identifier test (`_on_manual_entry`): the
stripped, uppercased input is nonempty, starts with `C`, and everything
after the `C` is one or more digits. -/
def guiManualAccepts (s : List Char) : Bool :=
  let t := pyUpper (pyStrip s)
  !t.isEmpty && decide (t.head? = some 'C') &&
    (!(t.drop 1).isEmpty && (t.drop 1).all isAsciiDigit)

/-- Modelled from the spec: the acceptance pattern for a manually typed
identifier, a literal `C` followed by one or more digits. -/
def specIdPattern : List Char → Bool
  | [] => false
  | c :: ds => c = 'C' && (!ds.isEmpty && ds.all isAsciiDigit)

/-- C9, counterexample: the command-line selection surface accepts the
manually typed identifier `CX`, which does not match the pattern of a
`C` followed by one or more digits. -/
theorem c9_cli_accepts_nonpattern :
    cliManualAccepts "CX".data = true ∧
    specIdPattern (pyUpper (pyStrip "CX".data)) = false := by
  decide

/-- C9, amended: the graphical dialog accepts a manually typed
identifier exactly when its stripped, uppercased form is a `C` followed
by one or more digits; the command-line prompt checks only a leading
`C`, so the pattern is enforced only at the dialog surface. -/
theorem c9_gui_enforces_pattern (s : List Char) :
    guiManualAccepts s = specIdPattern (pyUpper (pyStrip s)) := by
  unfold guiManualAccepts
  cases h : pyUpper (pyStrip s) with
  | nil => rfl
  | cons c ds =>
    simp [specIdPattern, Bool.and_assoc]
